import Mathlib

/-!
Verification of the Odin secondary-indexed scan engine.

Shallow embedding of:
- `internal/compression/compression.go` (CompressData / DecompressData framing),
- `internal/indexing/indexing.go` (UpdateIndex / RemoveFromIndex / GetIndexedKeys / HasIndex),
- `internal/reflection/reflection.go` (field matcher: GetFieldValue / MatchesCriteria),
- `bucket` package (FindWhereInDatabase index planner, intersectStringSlices,
  parallel scan producer/worker pipeline).

Go maps are embedded as association lists (unique keys in all reachable states);
Go byte slices as `List Nat`; Go `interface{}` field values as the inductive
`GoVal`; the external Go stdlib codecs (gzip/zlib/flate/lzw), which are not part
of this repository, are parameters (`Codecs`) constrained only where a theorem
needs their round-trip contract.
-/

namespace Odin

/-- First-match association-list lookup, the embedding of a Go map read. -/
def lookupA {α β : Type} [DecidableEq α] : List (α × β) → α → Option β
  | [], _ => none
  | (k, v) :: t, a => if k = a then some v else lookupA t a

/-- Association-list write, the embedding of a Go map assignment: replace the
first binding of the key, or append a new binding. -/
def setA {α β : Type} [DecidableEq α] : List (α × β) → α → β → List (α × β)
  | [], a, b => [(a, b)]
  | (k, v) :: t, a, b => if k = a then (a, b) :: t else (k, v) :: setA t a b

/-- Association-list delete, the embedding of Go `delete(m, k)`. -/
def eraseA {α β : Type} [DecidableEq α] (l : List (α × β)) (a : α) : List (α × β) :=
  l.filter (fun p => p.1 ≠ a)

/-- Remove the first occurrence of `x` (the `append(keys[:i], keys[i+1:]...)`
plus `break` idiom in `RemoveFromIndex`). -/
def removeFirst {α : Type} [DecidableEq α] : List α → α → List α
  | [], _ => []
  | y :: t, x => if y = x then t else y :: removeFirst t x

@[simp] theorem lookupA_nil {α β : Type} [DecidableEq α] (a : α) :
    lookupA ([] : List (α × β)) a = none := rfl

theorem lookupA_setA_self {α β : Type} [DecidableEq α]
    (l : List (α × β)) (a : α) (b : β) : lookupA (setA l a b) a = some b := by
  induction l with
  | nil => simp [setA, lookupA]
  | cons p t ih =>
    by_cases h : p.1 = a
    · simp [setA, lookupA, h]
    · simp only [setA, h, if_false]
      simpa [lookupA, h] using ih

theorem lookupA_setA_ne {α β : Type} [DecidableEq α]
    (l : List (α × β)) (a a' : α) (b : β) (h : a' ≠ a) :
    lookupA (setA l a b) a' = lookupA l a' := by
  have hne : a ≠ a' := Ne.symm h
  induction l with
  | nil => simp [setA, lookupA, hne]
  | cons p t ih =>
    by_cases hp : p.1 = a
    · rcases p with ⟨k, v⟩
      simp only at hp
      subst hp
      simp [setA, lookupA, hne]
    · rcases p with ⟨k, v⟩
      simp only at hp
      by_cases hp' : k = a'
      · simp [setA, lookupA, hp, hp', h]
      · simp [setA, lookupA, hp, hp', ih]

theorem lookupA_eraseA_self {α β : Type} [DecidableEq α]
    (l : List (α × β)) (a : α) : lookupA (eraseA l a) a = none := by
  induction l with
  | nil => rfl
  | cons p t ih =>
    by_cases h : p.1 = a
    · simpa [eraseA, List.filter_cons, h] using ih
    · simpa [eraseA, List.filter_cons, h, lookupA] using ih

theorem lookupA_eraseA_ne {α β : Type} [DecidableEq α]
    (l : List (α × β)) (a a' : α) (h : a' ≠ a) :
    lookupA (eraseA l a) a' = lookupA l a' := by
  induction l with
  | nil => rfl
  | cons p t ih =>
    by_cases hp : p.1 = a
    · have hpa : p.1 ≠ a' := by rw [hp]; exact Ne.symm h
      simpa [eraseA, List.filter_cons, hp, lookupA, hpa, Ne.symm h] using ih
    · by_cases hp' : p.1 = a'
      · simp [eraseA, List.filter_cons, hp, hp', lookupA, h]
      · simpa [eraseA, List.filter_cons, hp, hp', lookupA] using ih

theorem count_removeFirst_self {α : Type} [DecidableEq α] (l : List α) (x : α) :
    (removeFirst l x).count x = l.count x - 1 := by
  induction l with
  | nil => rfl
  | cons y t ih =>
    by_cases h : y = x
    · subst h; simp [removeFirst, List.count_cons_self]
    · simp [removeFirst, h, List.count_cons_of_ne (fun hh => h hh.symm), ih]

theorem not_mem_removeFirst_of_count_le {α : Type} [DecidableEq α]
    (l : List α) (x : α) (h : l.count x ≤ 1) : x ∉ removeFirst l x := by
  intro hmem
  have h1 : 1 ≤ (removeFirst l x).count x := List.one_le_count_iff.mpr hmem
  have h2 := count_removeFirst_self l x
  omega

theorem removeFirst_eq_of_not_mem {α : Type} [DecidableEq α]
    (l : List α) (x : α) (h : x ∉ l) : removeFirst l x = l := by
  induction l with
  | nil => rfl
  | cons y t ih =>
    simp only [List.mem_cons, not_or] at h
    have hyx : y ≠ x := Ne.symm h.1
    simp [removeFirst, hyx, ih h.2]

/-! ## Go values and records

`GoVal` embeds the fragment of Go `interface{}` values the index stores and
classifies; `isHashable` mirrors `isTypeHashable` in `indexing.go` case by
case (slice/map/func/interface/chan unhashable; pointer and array defer to
the element; struct requires every field hashable; scalars hashable;
`isHashable` maps Go `nil` to hashable). -/

inductive GoVal : Type where
  | vnil : GoVal
  | vint : Int → GoVal
  | vstr : String → GoVal
  | vbool : Bool → GoVal
  | vslice : GoVal → GoVal
  | vmap : GoVal
  | vfunc : GoVal
  | vchan : GoVal
  | viface : GoVal
  | vptr : GoVal → GoVal
  | varray : GoVal → GoVal
  | vpair : GoVal → GoVal → GoVal
deriving DecidableEq, Repr

/-- The hashability test of `indexing.go` (`isHashable` / `isTypeHashable`). -/
def isHashable : GoVal → Bool
  | .vnil => true
  | .vint _ => true
  | .vstr _ => true
  | .vbool _ => true
  | .vslice _ => false
  | .vmap => false
  | .vfunc => false
  | .vchan => false
  | .viface => false
  | .vptr v => isHashable v
  | .varray v => isHashable v
  | .vpair a b => isHashable a && isHashable b

/-- One struct field of a record: declared name, raw `json` struct tag
(`""` when absent), and current value. -/
structure GoField : Type where
  name : String
  tag : String
  value : GoVal
deriving DecidableEq, Repr

/-- A record is its ordered field list (the shape reflection iterates). -/
abbrev GoRecord := List GoField

/-- The serialization alias of a field: the `json` tag cut at the first comma,
when non-empty and not `"-"` (the tag-processing in `GetFieldMatcher` and in
the `UpdateIndex`/`RemoveFromIndex` loops). -/
def aliasOf (f : GoField) : Option String :=
  if f.tag ≠ "" then
    let t := (f.tag.splitOn ",").headD ""
    if t ≠ "" ∧ t ≠ "-" then some t else none
  else none

/-- The name under which `UpdateIndex` indexes a field: alias if present,
else the declared field name. -/
def fieldName (f : GoField) : String := (aliasOf f).getD f.name

/-- `FieldMatcher.GetFieldValue`: alias map first, then field-name map; Go map
construction overwrites, so the last field carrying the key wins. -/
def GetFieldValue (r : GoRecord) (key : String) : Option GoVal :=
  match (r.filter (fun f => aliasOf f = some key)).getLast? with
  | some f => some f.value
  | none =>
    match (r.filter (fun f => f.name = key)).getLast? with
    | some f => some f.value
    | none => none

/-- `MatchesCriteria`: every criterion must resolve on the record and compare
equal; an unresolved key fails; empty criteria match everything. -/
def MatchesCriteria (r : GoRecord) (criteria : List (String × GoVal)) : Bool :=
  criteria.all (fun c =>
    match GetFieldValue r c.1 with
    | some fv => fv = c.2
    | none => false)

/-! ## Secondary index (`internal/indexing/indexing.go`)

`Indexes` embeds the global `bucketIndexes` map:
bucket name → field name → field value → key list. -/

abbrev FieldIndex := List (GoVal × List String)
abbrev BucketIndex := List (String × FieldIndex)
abbrev Indexes := List (String × BucketIndex)

/-- The unconditional `bucketIndexes[bucketName][fieldName]` creation at the
top of the `UpdateIndex` field loop. -/
def ensureField (bi : BucketIndex) (fn : String) : BucketIndex :=
  match lookupA bi fn with
  | none => setA bi fn []
  | some _ => bi

/-- The guarded insertion at the bottom of the `UpdateIndex` field loop:
append the key to the per-value key set unless already present. -/
def insertAt (bi : BucketIndex) (fn : String) (v : GoVal) (key : String) :
    BucketIndex :=
  let fi := (lookupA bi fn).getD []
  let keys := (lookupA fi v).getD []
  if key ∈ keys then bi
  else setA bi fn (setA fi v (keys ++ [key]))

/-- Body of one iteration of the `UpdateIndex` field loop: ensure the field
map exists, then (when the value resolves and is hashable) insert the key. -/
def insertKeyStep (key : String) (r : GoRecord) (bi : BucketIndex) (f : GoField) :
    BucketIndex :=
  let fn := fieldName f
  let bi1 := ensureField bi fn
  match GetFieldValue r fn with
  | none => bi1
  | some v => if isHashable v then insertAt bi1 fn v key else bi1

/-- `indexing.UpdateIndex`: ensure the bucket map, then run the field loop. -/
def UpdateIndex (idx : Indexes) (bucketName key : String) (r : GoRecord) : Indexes :=
  let idx1 := match lookupA idx bucketName with
    | none => setA idx bucketName []
    | some _ => idx
  let bi := (lookupA idx1 bucketName).getD []
  setA idx1 bucketName (r.foldl (insertKeyStep key r) bi)

/-- Body of one iteration of the `RemoveFromIndex` field loop: when the field
map, value and key set exist, remove the first occurrence of the key and
delete the per-value entry when the remaining set is empty. -/
def removeKeyStep (key : String) (r : GoRecord) (bi : BucketIndex) (f : GoField) :
    BucketIndex :=
  let fn := fieldName f
  match lookupA bi fn with
  | none => bi
  | some fi =>
    match GetFieldValue r fn with
    | none => bi
    | some v =>
      if isHashable v then
        match lookupA fi v with
        | none => bi
        | some keys =>
          if key ∈ keys then
            let ks := removeFirst keys key
            setA bi fn (if ks = [] then eraseA fi v else setA fi v ks)
          else
            if keys = [] then setA bi fn (eraseA fi v) else bi
      else bi

/-- `indexing.RemoveFromIndex`: no-op for an unindexed bucket, else run the
field loop. -/
def RemoveFromIndex (idx : Indexes) (bucketName key : String) (r : GoRecord) :
    Indexes :=
  match lookupA idx bucketName with
  | none => idx
  | some bi => setA idx bucketName (r.foldl (removeKeyStep key r) bi)

/-- `indexing.GetIndexedKeys`: three-level lookup; `none` embeds
`found = false` at any of the three levels. -/
def GetIndexedKeys (idx : Indexes) (bucketName field : String) (v : GoVal) :
    Option (List String) :=
  match lookupA idx bucketName with
  | none => none
  | some bi =>
    match lookupA bi field with
    | none => none
    | some fi => lookupA fi v

/-- `indexing.HasIndex`. -/
def HasIndex (idx : Indexes) (bucketName : String) : Bool :=
  (lookupA idx bucketName).isSome

/-! ## Compression envelope (`internal/compression/compression.go`)

Byte slices are `List Nat`. The Go stdlib codecs are external to this
repository, so they enter as the parameter structure `Codecs`: each
compressor/decompressor is a partial byte-level function (`Option` embeds the
Go `error` result). The LZW entry points additionally carry the bit order and
literal width the source passes at every call site (`lzw.LSB`, `8`). -/

inductive LzwOrder : Type where
  | lsb : LzwOrder
  | msb : LzwOrder
deriving DecidableEq, Repr

/-- The external codec package: gzip, zlib, flate compress/decompress pairs,
and lzw compress/decompress parameterized by bit order and literal width. -/
structure Codecs : Type where
  gzipC : List Nat → Option (List Nat)
  gzipD : List Nat → Option (List Nat)
  zlibC : List Nat → Option (List Nat)
  zlibD : List Nat → Option (List Nat)
  flateC : List Nat → Option (List Nat)
  flateD : List Nat → Option (List Nat)
  lzwC : LzwOrder → Nat → List Nat → Option (List Nat)
  lzwD : LzwOrder → Nat → List Nat → Option (List Nat)

/-- The round-trip contract of the external codecs: whatever a compressor
produced, the matching decompressor (same codec; for LZW the same order and
literal width) restores the input. -/
def RoundtripCodecs (C : Codecs) : Prop :=
  (∀ x y, C.gzipC x = some y → C.gzipD y = some x) ∧
  (∀ x y, C.zlibC x = some y → C.zlibD y = some x) ∧
  (∀ x y, C.flateC x = some y → C.flateD y = some x) ∧
  (∀ o w x y, C.lzwC o w x = some y → C.lzwD o w y = some x)

/-- The compressor table of `CompressData` (tag, compressor), in the tried
order of `compression.go`: gzip, zlib, flate, lzw(LSB, 8). -/
def compressorList (C : Codecs) : List (Nat × (List Nat → Option (List Nat))) :=
  [(1, C.gzipC), (2, C.zlibC), (3, C.flateC), (4, fun d => C.lzwC LzwOrder.lsb 8 d)]

/-- One step of the selection loop: adopt a codec output only when it is
strictly smaller than the best so far. -/
def selectStep (data : List Nat) (acc : Nat × List Nat)
    (c : Nat × (List Nat → Option (List Nat))) : Nat × List Nat :=
  match c.2 data with
  | some compressed => if compressed.length < acc.2.length then (c.1, compressed) else acc
  | none => acc

/-- `compression.CompressData`: below the 50-byte threshold, a `none`-tagged
frame; otherwise try every codec, keep the strictly smallest output (raw data
with tag 0 is the initial best), and prepend the winning tag. -/
def CompressData (C : Codecs) (data : List Nat) : List Nat :=
  if data.length < 50 then 0 :: data
  else
    let best := (compressorList C).foldl (selectStep data) (0, data)
    best.1 :: best.2

/-- The gzip-magic fallback at the bottom of `DecompressData`: opportunistic
gunzip of the whole input when it starts with `1f 8b`, else return the input. -/
def gzipMagicFallback (C : Codecs) (data : List Nat) : List Nat :=
  match data with
  | a :: b :: _ =>
    if a = 0x1f ∧ b = 0x8b then
      match C.gzipD data with
      | some r => r
      | none => data
    else data
  | _ => data

/-- `compression.DecompressData`: empty input as-is; legacy 2-state branch for
tags 0/1 (tag 1 best-effort gunzip, falling back to the tail); modern tags
2–4 dispatch to the codec and on failure fall through to the gzip-magic
check and finally return the whole input. -/
def DecompressData (C : Codecs) (data : List Nat) : List Nat :=
  match data with
  | [] => []
  | t :: rest =>
    if t = 0 ∨ t = 1 then
      if t = 1 then
        match C.gzipD rest with
        | some r => r
        | none => rest
      else rest
    else
      let attempt : Option (List Nat) :=
        if t ≤ 4 then
          if t = 2 then C.zlibD rest
          else if t = 3 then C.flateD rest
          else C.lzwD LzwOrder.lsb 8 rest
        else none
      match attempt with
      | some r => r
      | none => gzipMagicFallback C data

/-! ## Query planner (`bucket` package, `FindWhereInDatabase`) -/

/-- The underlying point read used for candidate re-fetch; the store is the
bucket content, deserialization is the identity on stored records. -/
def storeGet (store : List (String × GoRecord)) (key : String) : Option GoRecord :=
  lookupA store key

/-- Candidate re-fetch loop: each key is read back; a failed read skips the
candidate. -/
def refetch (store : List (String × GoRecord)) (keys : List String) : List GoRecord :=
  keys.filterMap (storeGet store)

/-- Inner loop of `intersectStringSlices`: walk the first slice keeping items
present in the set built from the second, deleting on take so duplicates in
the first slice are not emitted twice. -/
def intersectLoop : List String → List String × List String → List String × List String
  | [], acc => acc
  | item :: rest, acc =>
    if item ∈ acc.2 then intersectLoop rest (acc.1 ++ [item], acc.2.filter (· ≠ item))
    else intersectLoop rest acc

/-- `bucket.intersectStringSlices`: empty slice short-circuit, smaller slice
iterated (swap), membership via a set of the larger slice. -/
def intersectStringSlices (a b : List String) : List String :=
  if a.isEmpty ∨ b.isEmpty then []
  else
    let p := if b.length < a.length then (b, a) else (a, b)
    (intersectLoop p.1 ([], p.2)).1

/-- Outcome of the indexed-query planner: a result list produced from index
candidates, or the signal to fall back to the parallel scan. -/
inductive PlanOut : Type where
  | results : List GoRecord → PlanOut
  | scan : PlanOut
deriving DecidableEq, Repr

/-- Tail of the multi-criterion loop: intersect each further found key set
into the candidates, returning an empty result set as soon as the
intersection is empty; an unresolved criterion abandons to scan. -/
def multiGo (idx : Indexes) (store : List (String × GoRecord)) (bucketName : String) :
    List (String × GoVal) → List String → PlanOut
  | [], cand => .results (refetch store cand)
  | (field, value) :: rest, cand =>
    match GetIndexedKeys idx bucketName field value with
    | some keys =>
      let c := intersectStringSlices cand keys
      if c.isEmpty then .results [] else multiGo idx store bucketName rest c
    | none => .scan

/-- The `len(criteria) > 1` branch: the first found key set seeds the
candidates (no emptiness check on it), the rest intersect via `multiGo`. -/
def findWhereMulti (idx : Indexes) (store : List (String × GoRecord))
    (bucketName : String) : List (String × GoVal) → PlanOut
  | [] => .scan
  | (field, value) :: rest =>
    match GetIndexedKeys idx bucketName field value with
    | none => .scan
    | some keys => multiGo idx store bucketName rest keys

/-- The index-resolution prefix of `FindWhereInDatabase` (part_001 lines
98–146): under `HasIndex`, a single criterion resolves by one probe and
multiple criteria by intersection; everything else falls to scan. -/
def findWhereIndexed (idx : Indexes) (store : List (String × GoRecord))
    (bucketName : String) (criteria : List (String × GoVal)) : PlanOut :=
  if HasIndex idx bucketName then
    if criteria.length = 1 then
      match criteria with
      | (field, value) :: _ =>
        match GetIndexedKeys idx bucketName field value with
        | some keys => .results (refetch store keys)
        | none => .scan
      | [] => .scan
    else if criteria.length > 1 then
      findWhereMulti idx store bucketName criteria
    else .scan
  else .scan

/-! ## Parallel scan engine (`FindWhereInDatabase` scan path)

The producer feeds the copied raw values into the work queue under a
per-item handoff deadline. The environment decides which handoffs time out
(`timesOut i` for the i-th item); `db.ForEach` stops at the first timeout and
returns the timeout error — which the producer goroutine discards. Workers
decompress, deserialize (`unmarshal`, a parameter standing for the JSON
codec) and filter; the collector concatenates. The worker partition is
collapsed to one deterministic pass, which preserves the collected multiset. -/

/-- The producer transaction: the prefix of values handed over before the
first per-item timeout, together with the error `db.ForEach` returned. -/
def produceItems (values : List (List Nat)) (timesOut : Nat → Bool) :
    List (List Nat) × Option String :=
  go values 0 []
where
  go : List (List Nat) → Nat → List (List Nat) → List (List Nat) × Option String
  | [], _, acc => (acc, none)
  | v :: rest, i, acc =>
    if timesOut i then (acc, some "timeout writing to work channel")
    else go rest (i + 1) (acc ++ [v])

/-- The worker-side decompression of `bucket_main.go` lines 107–126: inline
legacy handling (tag 0 strip, tag 1 gunzip falling back to the whole datum),
otherwise `DecompressData`. -/
def workerDecode (C : Codecs) (data : List Nat) : List Nat :=
  match data with
  | [] => []
  | t :: rest =>
    if t = 0 ∨ t = 1 then
      if t = 1 then
        match C.gzipD rest with
        | some r => r
        | none => data
      else rest
    else DecompressData C data

/-- One worker step: skip empty items, decode, deserialize (skip on failure),
keep criteria matches. -/
def workerProcess (C : Codecs) (unmarshal : List Nat → Option GoRecord)
    (criteria : List (String × GoVal)) (data : List Nat) : Option GoRecord :=
  if data.isEmpty then none
  else
    match unmarshal (workerDecode C data) with
    | none => none
    | some e => if MatchesCriteria e criteria then some e else none

/-- The whole scan path of `FindWhereInDatabase`: the producer goroutine runs
`db.ForEach` and drops its returned error, the workers drain the queue and the
collector returns the merged matches with a nil error. -/
def FindWhereScan (C : Codecs) (unmarshal : List Nat → Option GoRecord)
    (criteria : List (String × GoVal)) (values : List (List Nat))
    (timesOut : Nat → Bool) : Except String (List GoRecord) :=
  let fed := (produceItems values timesOut).1
  Except.ok (fed.filterMap (workerProcess C unmarshal criteria))

/-! ## Concrete codec packs used to instantiate parametric theorems -/

/-- Degenerate codec pack whose compressors and decompressors all succeed as
the identity; it satisfies the round-trip contract. -/
def CodecsId : Codecs where
  gzipC x := some x
  gzipD x := some x
  zlibC x := some x
  zlibD x := some x
  flateC x := some x
  flateD x := some x
  lzwC _ _ x := some x
  lzwD _ _ x := some x

theorem roundtrip_CodecsId : RoundtripCodecs CodecsId := by
  refine ⟨?_, ?_, ?_, ?_⟩
  · intro x y h; cases h; rfl
  · intro x y h; cases h; rfl
  · intro x y h; cases h; rfl
  · intro o w x y h; cases h; rfl

/-- Degenerate codec pack where every compression and decompression attempt
fails; it satisfies the round-trip contract vacuously. -/
def CodecsZero : Codecs where
  gzipC _ := none
  gzipD _ := none
  zlibC _ := none
  zlibD _ := none
  flateC _ := none
  flateD _ := none
  lzwC _ _ _ := none
  lzwD _ _ _ := none

theorem roundtrip_CodecsZero : RoundtripCodecs CodecsZero := by
  refine ⟨?_, ?_, ?_, ?_⟩ <;> intros <;> simp_all [CodecsZero]

/-- Codec pack whose LZW streams record the bit order in a leading marker
byte (8 for LSB-first, 9 for MSB-first) and whose decompressor accepts only
streams produced with its own order — the way real LZW bit streams of one
order are not valid streams of the other. Non-LZW codecs always fail. -/
def CodecsMark : Codecs where
  gzipC _ := none
  gzipD _ := none
  zlibC _ := none
  zlibD _ := none
  flateC _ := none
  flateD _ := none
  lzwC o _ x := some ((if o = LzwOrder.lsb then 8 else 9) :: x)
  lzwD o _ d :=
    match d with
    | 8 :: x => if o = LzwOrder.lsb then some x else none
    | 9 :: x => if o = LzwOrder.msb then some x else none
    | _ => none

theorem roundtrip_CodecsMark : RoundtripCodecs CodecsMark := by
  refine ⟨?_, ?_, ?_, ?_⟩
  · intro x y h; simp [CodecsMark] at h
  · intro x y h; simp [CodecsMark] at h
  · intro x y h; simp [CodecsMark] at h
  · intro o w x y h
    cases o <;> simp only [CodecsMark, if_pos, reduceIte, Option.some.injEq] at h <;>
      subst h <;> rfl

/-! ## Characterization of the compression selection loop -/

/-- The codec outputs that succeeded on `data`, tagged, in tried order. -/
def successes (C : Codecs) (data : List Nat) : List (Nat × List Nat) :=
  (compressorList C).filterMap (fun c => (c.2 data).map (fun y => (c.1, y)))

/-- All selection candidates: the raw payload under tag 0 first, then the
successful codec outputs in tried order. -/
def candidates (C : Codecs) (data : List Nat) : List (Nat × List Nat) :=
  (0, data) :: successes C data

/-- Specification-level selection: the earliest candidate of minimal payload
length ("the smallest output wins; ties favor earlier-tried"). -/
def firstMinSpec : List (Nat × List Nat) → Option (Nat × List Nat)
  | [] => none
  | c :: cs =>
    match firstMinSpec cs with
    | none => some c
    | some m => if m.2.length < c.2.length then some m else some c

theorem firstMinSpec_mem :
    ∀ (l : List (Nat × List Nat)) (m : Nat × List Nat), firstMinSpec l = some m → m ∈ l := by
  intro l
  induction l with
  | nil => intro m h; cases h
  | cons c cs ih =>
    intro m h
    simp only [firstMinSpec] at h
    split at h
    · cases h; exact List.mem_cons_self _ _
    · rename_i m' hcs
      split at h
      · cases h; exact List.mem_cons_of_mem _ (ih _ hcs)
      · cases h; exact List.mem_cons_self _ _

theorem firstMinSpec_isSome (c : Nat × List Nat) (cs : List (Nat × List Nat)) :
    ∃ m, firstMinSpec (c :: cs) = some m := by
  simp only [firstMinSpec]
  split
  · exact ⟨c, rfl⟩
  · split
    · exact ⟨_, rfl⟩
    · exact ⟨c, rfl⟩

theorem firstMinSpec_min :
    ∀ (l : List (Nat × List Nat)) (m : Nat × List Nat), firstMinSpec l = some m →
      ∀ c ∈ l, m.2.length ≤ c.2.length := by
  intro l
  induction l with
  | nil => intro m h; cases h
  | cons c cs ih =>
    intro m h d hd
    simp only [firstMinSpec] at h
    rcases List.mem_cons.mp hd with hdc | hdcs
    · subst hdc
      split at h
      · cases h; exact le_refl _
      · rename_i m' hcs
        split at h
        · rename_i hlt; cases h; exact le_of_lt hlt
        · cases h; exact le_refl _
    · split at h
      · rename_i hcs
        rcases cs with _ | ⟨a, b⟩
        · cases hdcs
        · rcases firstMinSpec_isSome a b with ⟨m', hm'⟩
          rw [hm'] at hcs; cases hcs
      · rename_i m' hcs
        have hm' := ih m' hcs d hdcs
        split at h
        · cases h; exact hm'
        · rename_i hlt; cases h; omega

theorem foldl_selectStep_eq (data : List Nat) :
    ∀ (cs : List (Nat × (List Nat → Option (List Nat)))) (acc : Nat × List Nat),
      cs.foldl (selectStep data) acc =
        match firstMinSpec (cs.filterMap (fun c => (c.2 data).map (fun y => (c.1, y)))) with
        | none => acc
        | some m => if m.2.length < acc.2.length then m else acc := by
  intro cs
  induction cs with
  | nil => intro acc; rfl
  | cons c t ih =>
    intro acc
    rw [List.foldl_cons, ih]
    cases hc : c.2 data with
    | none =>
      simp only [List.filterMap_cons, hc, Option.map_none']
      have : selectStep data acc c = acc := by simp [selectStep, hc]
      rw [this]
    | some y =>
      simp only [List.filterMap_cons, hc, Option.map_some']
      have hstep : selectStep data acc c =
          if y.length < acc.2.length then (c.1, y) else acc := by simp [selectStep, hc]
      rw [hstep]
      cases ht : firstMinSpec (t.filterMap (fun c => (c.2 data).map (fun y => (c.1, y)))) with
      | none =>
        simp only [firstMinSpec, ht]
      | some m =>
        simp only [firstMinSpec, ht]
        by_cases h1 : y.length < acc.2.length <;> by_cases h2 : m.2.length < y.length
        · have h3 : m.2.length < acc.2.length := by omega
          simp only [h1, h2, h3, if_true, reduceIte]
        · simp only [h1, h2, if_true, reduceIte]
        · simp only [h1, h2, if_true, if_false, reduceIte]
        · have h3 : ¬ m.2.length < acc.2.length := by omega
          simp only [h1, h2, h3, if_false, reduceIte]

/-- The selection loop of `CompressData` computes exactly the first minimal
candidate. -/
theorem compress_select_eq (C : Codecs) (data : List Nat) :
    firstMinSpec (candidates C data) =
      some ((compressorList C).foldl (selectStep data) (0, data)) := by
  rw [foldl_selectStep_eq]
  show firstMinSpec (candidates C data) = _
  simp only [candidates, firstMinSpec, successes]
  cases h : firstMinSpec ((compressorList C).filterMap (fun c => (c.2 data).map (fun y => (c.1, y)))) with
  | none => rfl
  | some m => by_cases hlt : m.2.length < data.length <;> simp [hlt]

/-- Above the threshold, `CompressData` frames the first minimal candidate. -/
theorem compress_eq_firstMin (C : Codecs) (data : List Nat) (h : ¬ data.length < 50) :
    ∃ m, firstMinSpec (candidates C data) = some m ∧
      CompressData C data = m.1 :: m.2 := by
  refine ⟨(compressorList C).foldl (selectStep data) (0, data), compress_select_eq C data, ?_⟩
  simp [CompressData, h]

/-- Inversion of candidate membership: a candidate is the raw payload under
tag 0 or a successful codec output under its tag. -/
theorem mem_candidates (C : Codecs) (data : List Nat) (m : Nat × List Nat)
    (h : m ∈ candidates C data) :
    (m.1 = 0 ∧ m.2 = data) ∨
    (m.1 = 1 ∧ C.gzipC data = some m.2) ∨
    (m.1 = 2 ∧ C.zlibC data = some m.2) ∨
    (m.1 = 3 ∧ C.flateC data = some m.2) ∨
    (m.1 = 4 ∧ C.lzwC LzwOrder.lsb 8 data = some m.2) := by
  rcases m with ⟨t, y⟩
  simp only [candidates, successes, compressorList, List.mem_cons, List.filterMap_cons,
    List.filterMap_nil] at h
  rcases h with h | h
  · left; exact ⟨congrArg Prod.fst h, congrArg Prod.snd h⟩
  · cases h1 : C.gzipC data <;> rw [h1] at h <;>
      cases h2 : C.zlibC data <;> rw [h2] at h <;>
        cases h3 : C.flateC data <;> rw [h3] at h <;>
          cases h4 : C.lzwC LzwOrder.lsb 8 data <;> rw [h4] at h <;>
            simp_all <;> tauto

/-! ## Claims about the compression envelope -/

/-- C1: for every byte sequence `b` (including the empty one), decoding the
frame produced by encoding `b` returns `b`, whichever codec the encoder
selected, given that the external codecs honor their round-trip contract. -/
theorem C1_encode_decode_roundtrip (C : Codecs) (data : List Nat)
    (hrt : RoundtripCodecs C) :
    DecompressData C (CompressData C data) = data := by
  by_cases hlen : data.length < 50
  · simp [CompressData, hlen, DecompressData]
  · obtain ⟨m, hfm, heq⟩ := compress_eq_firstMin C data hlen
    have hmem := firstMinSpec_mem _ _ hfm
    rw [heq]
    rcases mem_candidates C data m hmem with ⟨ht, hy⟩ | ⟨ht, hy⟩ | ⟨ht, hy⟩ | ⟨ht, hy⟩ | ⟨ht, hy⟩
    · rw [ht, hy]; simp [DecompressData]
    · rw [ht]; have hd := hrt.1 _ _ hy; simp [DecompressData, hd]
    · rw [ht]; have hd := hrt.2.1 _ _ hy; simp [DecompressData, hd]
    · rw [ht]; have hd := hrt.2.2.1 _ _ hy; simp [DecompressData, hd]
    · rw [ht]; have hd := hrt.2.2.2 _ _ _ _ hy; simp [DecompressData, hd]

theorem C1_encode_decode_roundtrip_witness :
    RoundtripCodecs CodecsId ∧
    DecompressData CodecsId (CompressData CodecsId [1, 2, 3]) = [1, 2, 3] :=
  ⟨roundtrip_CodecsId, C1_encode_decode_roundtrip CodecsId [1, 2, 3] roundtrip_CodecsId⟩

/-- The decode-failure configurations of the non-`none` tags: the codec the
tag dispatches to rejects the payload. -/
def tagDecodeFails (C : Codecs) (t : Nat) (payload : List Nat) : Prop :=
  (t = 1 ∧ C.gzipD payload = none) ∨
  (t = 2 ∧ C.zlibD payload = none) ∨
  (t = 3 ∧ C.flateD payload = none) ∨
  (t = 4 ∧ C.lzwD LzwOrder.lsb 8 payload = none)

/-- C3 counterexample: a tag-2 frame whose payload fails zlib decoding is
returned whole, tag byte included — not with the tag stripped as claimed. -/
theorem C3_counterexample :
    tagDecodeFails CodecsZero 2 [7] ∧ DecompressData CodecsZero (2 :: [7]) ≠ [7] := by
  refine ⟨Or.inr (Or.inl ⟨rfl, rfl⟩), ?_⟩
  decide

/-- C3 amended: on decode failure, only a tag-1 frame falls back to the input
minus its tag byte; failing frames with tags 2, 3 and 4 are returned whole,
tag byte included. In no case is an error produced. -/
theorem C3_decode_failure_fallback (C : Codecs) (t : Nat) (payload : List Nat)
    (hfail : tagDecodeFails C t payload) :
    DecompressData C (t :: payload) = if t = 1 then payload else t :: payload := by
  rcases hfail with ⟨ht, hd⟩ | ⟨ht, hd⟩ | ⟨ht, hd⟩ | ⟨ht, hd⟩ <;> subst ht <;>
    simp [DecompressData, hd, gzipMagicFallback] <;>
      cases payload <;> simp [gzipMagicFallback]

theorem C3_decode_failure_fallback_witness :
    tagDecodeFails CodecsZero 3 [7] ∧
    DecompressData CodecsZero (3 :: [7]) = 3 :: [7] := by
  refine ⟨Or.inr (Or.inr (Or.inl ⟨rfl, rfl⟩)), ?_⟩
  have h := C3_decode_failure_fallback CodecsZero 3 [7]
    (Or.inr (Or.inr (Or.inl ⟨rfl, rfl⟩)))
  simpa using h

/-- C5: below the 50-byte threshold the frame is the `none`-tagged payload of
length `len+1`; at or above it, the frame is the earliest minimal candidate
among the raw framing and the successfully tried codecs (ties favor the
earlier-tried option), so its payload is no longer than every candidate. -/
theorem C5_smallest_wins (C : Codecs) (data : List Nat) :
    (data.length < 50 →
      CompressData C data = 0 :: data ∧
      (CompressData C data).length = data.length + 1) ∧
    (¬ data.length < 50 →
      ∃ m, firstMinSpec (candidates C data) = some m ∧
        CompressData C data = m.1 :: m.2 ∧
        ∀ c ∈ candidates C data, m.2.length ≤ c.2.length) := by
  constructor
  · intro hlen
    constructor
    · simp [CompressData, hlen]
    · simp [CompressData, hlen]
  · intro hlen
    obtain ⟨m, hfm, heq⟩ := compress_eq_firstMin C data hlen
    exact ⟨m, hfm, heq, firstMinSpec_min _ _ hfm⟩

theorem C5_smallest_wins_witness :
    (CompressData CodecsZero [7] = 0 :: [7] ∧
      (CompressData CodecsZero [7]).length = [7].length + 1) ∧
    (∃ m, firstMinSpec (candidates CodecsZero (List.replicate 50 7)) = some m ∧
      CompressData CodecsZero (List.replicate 50 7) = m.1 :: m.2 ∧
      ∀ c ∈ candidates CodecsZero (List.replicate 50 7), m.2.length ≤ c.2.length) :=
  ⟨(C5_smallest_wins CodecsZero [7]).1 (by decide),
   (C5_smallest_wins CodecsZero (List.replicate 50 7)).2 (by decide)⟩

/-- C8 counterexample: a codec pack honoring the round-trip contract whose
LZW streams are only decodable under the order that produced them; a tag-4
frame holding an MSB-first LZW stream does not decode back to the payload,
because `DecompressData` decodes tag 4 with LSB-first order. -/
theorem C8_counterexample :
    RoundtripCodecs CodecsMark ∧
    CodecsMark.lzwC LzwOrder.msb 8 [7] = some [9, 7] ∧
    DecompressData CodecsMark (4 :: [9, 7]) ≠ [7] :=
  ⟨roundtrip_CodecsMark, rfl, by decide⟩

/-- C8 amended: tag-4 frames carry LZW with LSB-first bit order and 8-bit
literal width: a payload encoded with LSB-first LZW and framed with tag 4
decodes back to that payload. -/
theorem C8_lzw_lsb_roundtrip (C : Codecs) (p y : List Nat)
    (hrt : RoundtripCodecs C) (henc : C.lzwC LzwOrder.lsb 8 p = some y) :
    DecompressData C (4 :: y) = p := by
  have hd := hrt.2.2.2 _ _ _ _ henc
  simp [DecompressData, hd]

theorem C8_lzw_lsb_roundtrip_witness :
    RoundtripCodecs CodecsMark ∧
    CodecsMark.lzwC LzwOrder.lsb 8 [7] = some [8, 7] ∧
    DecompressData CodecsMark (4 :: [8, 7]) = [7] :=
  ⟨roundtrip_CodecsMark, rfl,
   C8_lzw_lsb_roundtrip CodecsMark [7] [8, 7] roundtrip_CodecsMark rfl⟩

/-- C10: every frame `CompressData` produces is non-empty, its tag byte is in
the range 0–4, and its total length is at most `len(data) + 1`, because a
codec output is adopted only when strictly smaller than the best so far. -/
theorem C10_frame_shape (C : Codecs) (data : List Nat) :
    ∃ t payload, CompressData C data = t :: payload ∧ t ≤ 4 ∧
      payload.length ≤ data.length := by
  by_cases hlen : data.length < 50
  · exact ⟨0, data, by simp [CompressData, hlen], by omega, le_refl _⟩
  · obtain ⟨m, hfm, heq⟩ := compress_eq_firstMin C data hlen
    refine ⟨m.1, m.2, heq, ?_, ?_⟩
    · rcases mem_candidates C data m (firstMinSpec_mem _ _ hfm) with
        ⟨ht, _⟩ | ⟨ht, _⟩ | ⟨ht, _⟩ | ⟨ht, _⟩ | ⟨ht, _⟩ <;> omega
    · have := firstMinSpec_min _ _ hfm (0, data) (List.mem_cons_self _ _)
      simpa using this

/-! ## Characterization of the index update/removal loops -/

/-- Key-set view of a bucket index at one (field, value) pair. -/
def getKsB (bi : BucketIndex) (fn : String) (v : GoVal) : Option (List String) :=
  (lookupA bi fn).bind (fun fi => lookupA fi v)

/-- Append a key to a key set unless already present. -/
def insertIfAbsent (l : List String) (k : String) : List String :=
  if k ∈ l then l else l ++ [k]

theorem mem_insertIfAbsent (l : List String) (k : String) : k ∈ insertIfAbsent l k := by
  by_cases h : k ∈ l <;> simp [insertIfAbsent, h]

theorem count_insertIfAbsent (l : List String) (k : String) (h : l.count k ≤ 1) :
    (insertIfAbsent l k).count k = 1 := by
  by_cases hm : k ∈ l
  · have h1 : 1 ≤ l.count k := List.one_le_count_iff.mpr hm
    simp only [insertIfAbsent, hm, if_true]
    omega
  · have h0 : l.count k = 0 := List.count_eq_zero.mpr hm
    simp [insertIfAbsent, hm, List.count_append, h0]

theorem GetIndexedKeys_eq_bind (idx : Indexes) (b fn : String) (v : GoVal) :
    GetIndexedKeys idx b fn v = (lookupA idx b).bind (fun bi => getKsB bi fn v) := by
  cases h : lookupA idx b with
  | none => simp [GetIndexedKeys, h]
  | some bi =>
    cases h2 : lookupA bi fn with
    | none => simp [GetIndexedKeys, getKsB, h, h2]
    | some fi => simp [GetIndexedKeys, getKsB, h, h2]

theorem lookupA_ensureField_self (bi : BucketIndex) (fn : String) :
    lookupA (ensureField bi fn) fn = some ((lookupA bi fn).getD []) := by
  cases h : lookupA bi fn with
  | none => simp [ensureField, h, lookupA_setA_self]
  | some fi => simp [ensureField, h]

theorem lookupA_ensureField_ne (bi : BucketIndex) (fn fn' : String) (h : fn' ≠ fn) :
    lookupA (ensureField bi fn) fn' = lookupA bi fn' := by
  cases hbi : lookupA bi fn with
  | none => simp [ensureField, hbi, lookupA_setA_ne _ _ _ _ h]
  | some fi => simp [ensureField, hbi]

theorem getKsB_ensureField (bi : BucketIndex) (fn : String) (v : GoVal) :
    (getKsB (ensureField bi fn) fn v).getD [] = (getKsB bi fn v).getD [] := by
  cases h : lookupA bi fn with
  | none => simp [getKsB, ensureField, h, lookupA_setA_self]
  | some fi => simp [getKsB, ensureField, h]

theorem getKsB_insertAt (bi : BucketIndex) (fn : String) (v : GoVal) (key : String) :
    getKsB (insertAt bi fn v key) fn v =
      some (insertIfAbsent ((getKsB bi fn v).getD []) key) := by
  cases hbi : lookupA bi fn with
  | none =>
    simp [insertAt, hbi, getKsB, insertIfAbsent, lookupA_setA_self, lookupA]
  | some fi =>
    cases hfi : lookupA fi v with
    | none =>
      simp [insertAt, hbi, hfi, getKsB, insertIfAbsent, lookupA_setA_self]
    | some keys =>
      by_cases hmem : key ∈ keys
      · simp [insertAt, hbi, hfi, hmem, getKsB, insertIfAbsent]
      · simp [insertAt, hbi, hfi, hmem, getKsB, insertIfAbsent, lookupA_setA_self]

theorem lookupA_insertAt_ne (bi : BucketIndex) (fn fn' : String) (v : GoVal)
    (key : String) (h : fn' ≠ fn) :
    lookupA (insertAt bi fn v key) fn' = lookupA bi fn' := by
  simp only [insertAt]
  split
  · rfl
  · exact lookupA_setA_ne _ _ _ _ h

theorem insertKeyStep_self (key : String) (r : GoRecord) (f : GoField)
    (fn : String) (v : GoVal) (bi : BucketIndex)
    (hfn : fieldName f = fn) (hv : GetFieldValue r fn = some v)
    (hh : isHashable v = true) :
    getKsB (insertKeyStep key r bi f) fn v =
      some (insertIfAbsent ((getKsB bi fn v).getD []) key) := by
  simp only [insertKeyStep, hfn, hv, hh, if_true]
  rw [getKsB_insertAt, getKsB_ensureField]

theorem insertKeyStep_ne (key : String) (r : GoRecord) (f : GoField)
    (fn : String) (bi : BucketIndex) (hfn : fieldName f ≠ fn) :
    lookupA (insertKeyStep key r bi f) fn = lookupA bi fn := by
  simp only [insertKeyStep]
  have hens := lookupA_ensureField_ne bi (fieldName f) fn (Ne.symm hfn)
  cases hv : GetFieldValue r (fieldName f) with
  | none => exact hens
  | some v =>
    by_cases hh : isHashable v
    · simp only [hh, if_true]
      rw [lookupA_insertAt_ne _ _ _ _ _ (Ne.symm hfn)]
      exact hens
    · simp only [hh, if_false]
      exact hens

theorem getKsB_eq_of_lookupA_eq (bi bi' : BucketIndex) (fn : String) (v : GoVal)
    (h : lookupA bi' fn = lookupA bi fn) : getKsB bi' fn v = getKsB bi fn v := by
  simp [getKsB, h]

theorem foldl_insert_preserve (key : String) (r : GoRecord) (fn : String) (v : GoVal)
    (ks : List String) :
    ∀ (fs : List GoField) (bi : BucketIndex),
      GetFieldValue r fn = some v → isHashable v = true →
      getKsB bi fn v = some ks → key ∈ ks →
      getKsB (fs.foldl (insertKeyStep key r) bi) fn v = some ks := by
  intro fs
  induction fs with
  | nil => intro bi _ _ hks _; exact hks
  | cons f t ih =>
    intro bi hv hh hks hmem
    rw [List.foldl_cons]
    by_cases hfn : fieldName f = fn
    · apply ih _ hv hh _ hmem
      rw [insertKeyStep_self key r f fn v bi hfn hv hh, hks]
      simp [insertIfAbsent, hmem]
    · apply ih _ hv hh _ hmem
      rw [getKsB_eq_of_lookupA_eq _ _ _ _ (insertKeyStep_ne key r f fn bi hfn)]
      exact hks

theorem foldl_insert_self (key : String) (r : GoRecord) (fn : String) (v : GoVal) :
    ∀ (fs : List GoField) (bi : BucketIndex),
      GetFieldValue r fn = some v → isHashable v = true →
      (∃ f ∈ fs, fieldName f = fn) →
      getKsB (fs.foldl (insertKeyStep key r) bi) fn v =
        some (insertIfAbsent ((getKsB bi fn v).getD []) key) := by
  intro fs
  induction fs with
  | nil => intro bi _ _ hex; rcases hex with ⟨f, hf, _⟩; cases hf
  | cons f t ih =>
    intro bi hv hh hex
    rw [List.foldl_cons]
    by_cases hfn : fieldName f = fn
    · have hstep := insertKeyStep_self key r f fn v bi hfn hv hh
      exact foldl_insert_preserve key r fn v _ t _ hv hh hstep
        (mem_insertIfAbsent _ _)
    · rcases hex with ⟨g, hg, hgfn⟩
      rcases List.mem_cons.mp hg with hgf | hgt
      · subst hgf; exact absurd hgfn hfn
      · have hpres := insertKeyStep_ne key r f fn bi hfn
        rw [ih _ hv hh ⟨g, hgt, hgfn⟩,
          getKsB_eq_of_lookupA_eq _ _ _ _ hpres]

/-- Effect of one `UpdateIndex` call on the key set at an indexable
(field, value) pair of the record: the key is appended unless present. -/
theorem UpdateIndex_getKeys (idx : Indexes) (b key : String) (r : GoRecord)
    (fn : String) (v : GoVal)
    (hf : ∃ f ∈ r, fieldName f = fn) (hv : GetFieldValue r fn = some v)
    (hh : isHashable v = true) :
    GetIndexedKeys (UpdateIndex idx b key r) b fn v =
      some (insertIfAbsent ((GetIndexedKeys idx b fn v).getD []) key) := by
  rw [GetIndexedKeys_eq_bind]
  cases hb : lookupA idx b with
  | none =>
    have hfold := foldl_insert_self key r fn v r ([] : BucketIndex) hv hh hf
    have hold : GetIndexedKeys idx b fn v = none := by
      simp [GetIndexedKeys, hb]
    simp only [UpdateIndex, hb, lookupA_setA_self, Option.getD_some, Option.some_bind]
    rw [hfold, hold]
    simp [getKsB]
  | some bi =>
    have hfold := foldl_insert_self key r fn v r bi hv hh hf
    have hold : GetIndexedKeys idx b fn v = getKsB bi fn v := by
      rw [GetIndexedKeys_eq_bind, hb, Option.some_bind]
    simp only [UpdateIndex, hb, lookupA_setA_self, Option.getD_some, Option.some_bind]
    rw [hfold, hold]

theorem UpdateIndex_iterate_getKeys (b key : String) (r : GoRecord)
    (fn : String) (v : GoVal) (n : Nat)
    (hf : ∃ f ∈ r, fieldName f = fn) (hv : GetFieldValue r fn = some v)
    (hh : isHashable v = true) :
    GetIndexedKeys ((fun s => UpdateIndex s b key r)^[n + 1] ([] : Indexes)) b fn v =
      some [key] := by
  induction n with
  | zero =>
    rw [Function.iterate_one]
    rw [UpdateIndex_getKeys ([] : Indexes) b key r fn v hf hv hh]
    simp [GetIndexedKeys, insertIfAbsent]
  | succ n ih =>
    rw [Function.iterate_succ_apply']
    rw [UpdateIndex_getKeys _ b key r fn v hf hv hh, ih]
    simp [insertIfAbsent]

/-- Concrete one-field record used to instantiate the index theorems. -/
def recX : GoRecord := [⟨"x", "", GoVal.vint 1⟩]

/-- C6: `UpdateIndex` is idempotent — after one or more repeated
`UpdateIndex(bucket, key, r)` calls with the same record, the key set at every
indexable (field, value) pair of `r` holds the key exactly once. -/
theorem C6_update_index_idempotent (b key : String) (r : GoRecord)
    (fn : String) (v : GoVal) (n : Nat)
    (hf : ∃ f ∈ r, fieldName f = fn) (hv : GetFieldValue r fn = some v)
    (hh : isHashable v = true) :
    ∃ ks, GetIndexedKeys ((fun s => UpdateIndex s b key r)^[n + 1] ([] : Indexes)) b fn v =
      some ks ∧ ks.count key = 1 :=
  ⟨[key], UpdateIndex_iterate_getKeys b key r fn v n hf hv hh, by simp⟩

theorem C6_update_index_idempotent_witness :
    ∃ ks, GetIndexedKeys
        ((fun s => UpdateIndex s "users" "k1" recX)^[3] ([] : Indexes)) "users" "x"
        (GoVal.vint 1) = some ks ∧ ks.count "k1" = 1 :=
  C6_update_index_idempotent "users" "k1" recX "x" (GoVal.vint 1) 2
    (by decide) (by decide) (by decide)

/-- The effect one removal pass has on the key set at one (field, value)
pair: remove the first occurrence of the key, pruning the entry when the
remaining set (or an already-empty set) is empty. -/
def rmEffect (o : Option (List String)) (key : String) : Option (List String) :=
  match o with
  | none => none
  | some keys =>
    if key ∈ keys then
      let ks := removeFirst keys key
      if ks = [] then none else some ks
    else if keys = [] then none else some keys

theorem not_mem_rmEffect (o : Option (List String)) (key : String)
    (hcnt : (o.getD []).count key ≤ 1) :
    key ∉ (rmEffect o key).getD [] := by
  cases o with
  | none => simp [rmEffect]
  | some keys =>
    simp only [Option.getD_some] at hcnt
    by_cases hmem : key ∈ keys
    · have hnot := not_mem_removeFirst_of_count_le keys key hcnt
      by_cases hemp : removeFirst keys key = []
      · simp [rmEffect, hmem, hemp]
      · simpa [rmEffect, hmem, hemp] using hnot
    · by_cases hemp : keys = []
      · simp [rmEffect, hmem, hemp]
      · simp [rmEffect, hmem, hemp]

theorem rmEffect_fixed (o : Option (List String)) (key : String)
    (hcnt : (o.getD []).count key ≤ 1) :
    rmEffect (rmEffect o key) key = rmEffect o key := by
  have hnot := not_mem_rmEffect o key hcnt
  cases ho : rmEffect o key with
  | none => simp [rmEffect]
  | some ks =>
    rw [ho] at hnot
    simp only [Option.getD_some] at hnot
    have hne : ks ≠ [] := by
      intro hemp
      cases o with
      | none => simp [rmEffect] at ho
      | some keys =>
        by_cases hmem : key ∈ keys
        · by_cases h2 : removeFirst keys key = [] <;> simp [rmEffect, hmem, h2] at ho
          exact absurd (ho ▸ hemp) h2
        · by_cases h2 : keys = [] <;> simp [rmEffect, hmem, h2] at ho
          exact absurd (ho ▸ hemp) h2
    simp [rmEffect, hnot, hne]

theorem removeKeyStep_self (key : String) (r : GoRecord) (f : GoField)
    (fn : String) (v : GoVal) (bi : BucketIndex)
    (hfn : fieldName f = fn) (hv : GetFieldValue r fn = some v)
    (hh : isHashable v = true) :
    getKsB (removeKeyStep key r bi f) fn v = rmEffect (getKsB bi fn v) key := by
  simp only [removeKeyStep, hfn, hv, hh, if_true]
  cases hbi : lookupA bi fn with
  | none => simp [getKsB, hbi, rmEffect]
  | some fi =>
    cases hfi : lookupA fi v with
    | none => simp [getKsB, hbi, hfi, rmEffect]
    | some keys =>
      by_cases hmem : key ∈ keys
      · by_cases hemp : removeFirst keys key = []
        · simp [hmem, hemp, getKsB, hbi, hfi, rmEffect, lookupA_setA_self,
            lookupA_eraseA_self]
        · simp [hmem, hemp, getKsB, hbi, hfi, rmEffect, lookupA_setA_self]
      · by_cases hemp : keys = []
        · simp [hmem, hemp, getKsB, hbi, hfi, rmEffect, lookupA_setA_self,
            lookupA_eraseA_self]
        · simp [hmem, hemp, getKsB, hbi, hfi, rmEffect]

theorem removeKeyStep_ne (key : String) (r : GoRecord) (f : GoField)
    (fn : String) (bi : BucketIndex) (hfn : fieldName f ≠ fn) :
    lookupA (removeKeyStep key r bi f) fn = lookupA bi fn := by
  simp only [removeKeyStep]
  cases hbi : lookupA bi (fieldName f) with
  | none => rfl
  | some fi =>
    cases hv : GetFieldValue r (fieldName f) with
    | none => rfl
    | some v =>
      by_cases hh : isHashable v
      · simp only [hh, if_true]
        cases hfi : lookupA fi v with
        | none => rfl
        | some keys =>
          by_cases hmem : key ∈ keys
          · simp only [hmem, if_true]
            exact lookupA_setA_ne _ _ _ _ (Ne.symm hfn)
          · by_cases hemp : keys = []
            · simp only [hmem, if_false, hemp, if_true]
              exact lookupA_setA_ne _ _ _ _ (Ne.symm hfn)
            · simp [hmem, hemp]
      · simp [hh]

theorem foldl_remove_preserve (key : String) (r : GoRecord) (fn : String) (v : GoVal)
    (o : Option (List String)) :
    ∀ (fs : List GoField) (bi : BucketIndex),
      GetFieldValue r fn = some v → isHashable v = true →
      getKsB bi fn v = o → rmEffect o key = o →
      getKsB (fs.foldl (removeKeyStep key r) bi) fn v = o := by
  intro fs
  induction fs with
  | nil => intro bi _ _ hks _; exact hks
  | cons f t ih =>
    intro bi hv hh hks hfix
    rw [List.foldl_cons]
    by_cases hfn : fieldName f = fn
    · apply ih _ hv hh _ hfix
      rw [removeKeyStep_self key r f fn v bi hfn hv hh, hks, hfix]
    · apply ih _ hv hh _ hfix
      rw [getKsB_eq_of_lookupA_eq _ _ _ _ (removeKeyStep_ne key r f fn bi hfn)]
      exact hks

theorem foldl_remove_self (key : String) (r : GoRecord) (fn : String) (v : GoVal) :
    ∀ (fs : List GoField) (bi : BucketIndex),
      GetFieldValue r fn = some v → isHashable v = true →
      (∃ f ∈ fs, fieldName f = fn) →
      ((getKsB bi fn v).getD []).count key ≤ 1 →
      getKsB (fs.foldl (removeKeyStep key r) bi) fn v =
        rmEffect (getKsB bi fn v) key := by
  intro fs
  induction fs with
  | nil => intro bi _ _ hex; rcases hex with ⟨f, hf, _⟩; cases hf
  | cons f t ih =>
    intro bi hv hh hex hcnt
    rw [List.foldl_cons]
    by_cases hfn : fieldName f = fn
    · have hstep := removeKeyStep_self key r f fn v bi hfn hv hh
      exact foldl_remove_preserve key r fn v _ t _ hv hh hstep
        (rmEffect_fixed _ _ hcnt)
    · rcases hex with ⟨g, hg, hgfn⟩
      rcases List.mem_cons.mp hg with hgf | hgt
      · subst hgf; exact absurd hgfn hfn
      · have hpres := removeKeyStep_ne key r f fn bi hfn
        have hgk := getKsB_eq_of_lookupA_eq _ _ fn v hpres
        rw [ih _ hv hh ⟨g, hgt, hgfn⟩ (by rw [hgk]; exact hcnt), hgk]

/-- Effect of one `RemoveFromIndex` call on the key set at an indexable
(field, value) pair of the record, in states where the key appears at most
once (every state the update path reaches). -/
theorem RemoveFromIndex_getKeys (idx : Indexes) (b key : String) (r : GoRecord)
    (fn : String) (v : GoVal)
    (hf : ∃ f ∈ r, fieldName f = fn) (hv : GetFieldValue r fn = some v)
    (hh : isHashable v = true)
    (hcnt : ((GetIndexedKeys idx b fn v).getD []).count key ≤ 1) :
    GetIndexedKeys (RemoveFromIndex idx b key r) b fn v =
      rmEffect (GetIndexedKeys idx b fn v) key := by
  cases hb : lookupA idx b with
  | none =>
    have hold : GetIndexedKeys idx b fn v = none := by simp [GetIndexedKeys, hb]
    simp only [RemoveFromIndex, hb, hold, rmEffect]
  | some bi =>
    have hold : GetIndexedKeys idx b fn v = getKsB bi fn v := by
      rw [GetIndexedKeys_eq_bind, hb, Option.some_bind]
    rw [hold] at hcnt
    have hfold := foldl_remove_self key r fn v r bi hv hh hf hcnt
    rw [GetIndexedKeys_eq_bind]
    simp only [RemoveFromIndex, hb, lookupA_setA_self, Option.some_bind]
    rw [hfold, hold]

/-- C7: after `RemoveFromIndex(bucket, key, r)` with the same record that was
indexed, no key set at an indexable (field, value) pair of `r` still holds
the key; starting from the empty index the entry is pruned entirely, so the
lookup reports found = false. -/
theorem C7_remove_from_index (s : Indexes) (b key : String) (r : GoRecord)
    (fn : String) (v : GoVal)
    (hf : ∃ f ∈ r, fieldName f = fn) (hv : GetFieldValue r fn = some v)
    (hh : isHashable v = true)
    (hcnt : ((GetIndexedKeys s b fn v).getD []).count key ≤ 1) :
    (∀ ks, GetIndexedKeys (RemoveFromIndex (UpdateIndex s b key r) b key r) b fn v =
        some ks → key ∉ ks) ∧
    GetIndexedKeys (RemoveFromIndex (UpdateIndex ([] : Indexes) b key r) b key r)
        b fn v = none := by
  constructor
  · intro ks hks
    have hupd := UpdateIndex_getKeys s b key r fn v hf hv hh
    have hcnt2 : ((GetIndexedKeys (UpdateIndex s b key r) b fn v).getD []).count key ≤ 1 := by
      rw [hupd]
      simp only [Option.getD_some]
      have hone := count_insertIfAbsent ((GetIndexedKeys s b fn v).getD []) key hcnt
      omega
    have hrem := RemoveFromIndex_getKeys (UpdateIndex s b key r) b key r fn v hf hv hh hcnt2
    have hnot := not_mem_rmEffect (GetIndexedKeys (UpdateIndex s b key r) b fn v) key hcnt2
    rw [hrem] at hks
    rw [hks] at hnot
    simpa using hnot
  · have hupd := UpdateIndex_getKeys ([] : Indexes) b key r fn v hf hv hh
    have hgik : GetIndexedKeys ([] : Indexes) b fn v = none := by
      simp [GetIndexedKeys, lookupA]
    rw [hgik] at hupd
    simp only [Option.getD_none] at hupd
    have hone : insertIfAbsent [] key = [key] := by simp [insertIfAbsent]
    rw [hone] at hupd
    have hcnt2 : ((GetIndexedKeys (UpdateIndex ([] : Indexes) b key r) b fn v).getD
        []).count key ≤ 1 := by
      rw [hupd]; simp
    have hrem := RemoveFromIndex_getKeys (UpdateIndex ([] : Indexes) b key r)
      b key r fn v hf hv hh hcnt2
    rw [hrem, hupd]
    simp [rmEffect, removeFirst]

theorem C7_remove_from_index_witness :
    (∀ ks, GetIndexedKeys
        (RemoveFromIndex (UpdateIndex ([] : Indexes) "users" "k1" recX) "users" "k1" recX)
        "users" "x" (GoVal.vint 1) = some ks → "k1" ∉ ks) ∧
    GetIndexedKeys
        (RemoveFromIndex (UpdateIndex ([] : Indexes) "users" "k1" recX) "users" "k1" recX)
        "users" "x" (GoVal.vint 1) = none :=
  C7_remove_from_index ([] : Indexes) "users" "k1" recX "x" (GoVal.vint 1)
    (by decide) (by decide) (by decide) (by decide)

theorem getKsB_ensureField_none (bi : BucketIndex) (fn : String) (v' : GoVal)
    (h : getKsB bi fn v' = none) : getKsB (ensureField bi fn) fn v' = none := by
  cases hbi : lookupA bi fn with
  | none => simp [getKsB, ensureField, hbi, lookupA_setA_self, lookupA]
  | some fi => simpa [getKsB, ensureField, hbi] using h

theorem insertKeyStep_unhashable (key : String) (r : GoRecord) (f : GoField)
    (fn : String) (v : GoVal)
    (hfn : fieldName f = fn) (hv : GetFieldValue r fn = some v)
    (hh : isHashable v = false) (bi : BucketIndex) :
    insertKeyStep key r bi f = ensureField bi fn := by
  simp [insertKeyStep, hfn, hv, hh]

theorem foldl_insert_unhashable (key : String) (r : GoRecord) (fn : String) (v : GoVal)
    (hv : GetFieldValue r fn = some v) (hh : isHashable v = false) :
    ∀ (fs : List GoField) (bi : BucketIndex),
      (∀ v', getKsB bi fn v' = none) →
      ∀ v', getKsB (fs.foldl (insertKeyStep key r) bi) fn v' = none := by
  intro fs
  induction fs with
  | nil => intro bi hinv v'; exact hinv v'
  | cons f t ih =>
    intro bi hinv v'
    rw [List.foldl_cons]
    by_cases hfn : fieldName f = fn
    · rw [insertKeyStep_unhashable key r f fn v hfn hv hh bi]
      exact ih _ (fun w => getKsB_ensureField_none bi fn w (hinv w)) v'
    · refine ih _ (fun w => ?_) v'
      rw [getKsB_eq_of_lookupA_eq _ _ _ _ (insertKeyStep_ne key r f fn bi hfn)]
      exact hinv w

theorem UpdateIndex_unhashable (idx : Indexes) (b key : String) (r : GoRecord)
    (fn : String) (v : GoVal)
    (hv : GetFieldValue r fn = some v) (hh : isHashable v = false)
    (hinv : ∀ v', GetIndexedKeys idx b fn v' = none) :
    ∀ v', GetIndexedKeys (UpdateIndex idx b key r) b fn v' = none := by
  intro v'
  rw [GetIndexedKeys_eq_bind]
  cases hb : lookupA idx b with
  | none =>
    simp only [UpdateIndex, hb, lookupA_setA_self, Option.getD_some, Option.some_bind]
    exact foldl_insert_unhashable key r fn v hv hh r ([] : BucketIndex)
      (fun w => by simp [getKsB]) v'
  | some bi =>
    have hbi : ∀ w, getKsB bi fn w = none := by
      intro w
      have := hinv w
      rwa [GetIndexedKeys_eq_bind, hb, Option.some_bind] at this
    simp only [UpdateIndex, hb, lookupA_setA_self, Option.getD_some, Option.some_bind]
    exact foldl_insert_unhashable key r fn v hv hh r bi hbi v'

theorem foldl_update_unhashable (b : String) (r : GoRecord) (fn : String) (v : GoVal)
    (hv : GetFieldValue r fn = some v) (hh : isHashable v = false) :
    ∀ (keyList : List String) (idx : Indexes),
      (∀ v', GetIndexedKeys idx b fn v' = none) →
      ∀ v', GetIndexedKeys (keyList.foldl (fun s k => UpdateIndex s b k r) idx)
        b fn v' = none := by
  intro keyList
  induction keyList with
  | nil => intro idx hinv v'; exact hinv v'
  | cons k t ih =>
    intro idx hinv v'
    rw [List.foldl_cons]
    exact ih _ (UpdateIndex_unhashable idx b k r fn v hv hh hinv) v'

/-- Concrete record with a slice-typed (unhashable) field, used to
instantiate the exclusion theorem. -/
def recU : GoRecord := [⟨"s", "", GoVal.vslice (GoVal.vint 1)⟩]

/-- C9: a field whose value has unhashable shape is never indexed — after any
sequence of `UpdateIndex` saves of such a record, `GetIndexedKeys` for that
field reports found = false at every probe value. -/
theorem C9_unhashable_field_excluded (b : String) (r : GoRecord)
    (fn : String) (v : GoVal) (keyList : List String)
    (hv : GetFieldValue r fn = some v) (hh : isHashable v = false) :
    ∀ v', GetIndexedKeys (keyList.foldl (fun s k => UpdateIndex s b k r) ([] : Indexes))
      b fn v' = none :=
  foldl_update_unhashable b r fn v hv hh keyList ([] : Indexes)
    (fun v' => by simp [GetIndexedKeys, lookupA])

theorem C9_unhashable_field_excluded_witness :
    GetIndexedKeys
      ((["k1", "k2"]).foldl (fun s k => UpdateIndex s "users" k recU) ([] : Indexes))
      "users" "s" (GoVal.vslice (GoVal.vint 1)) = none :=
  C9_unhashable_field_excluded "users" recU "s" (GoVal.vslice (GoVal.vint 1))
    ["k1", "k2"] (by decide) (by decide) (GoVal.vslice (GoVal.vint 1))

/-! ## Characterization of the multi-criteria planner -/

theorem mem_intersectLoop :
    ∀ (a : List String) (acc : List String × List String) (k : String),
      k ∈ (intersectLoop a acc).1 ↔ k ∈ acc.1 ∨ (k ∈ a ∧ k ∈ acc.2) := by
  intro a
  induction a with
  | nil => intro acc k; simp [intersectLoop]
  | cons item rest ih =>
    intro acc k
    simp only [intersectLoop]
    by_cases hmem : item ∈ acc.2
    · rw [if_pos hmem, ih]
      simp only [List.mem_append, List.mem_singleton, List.mem_filter, List.mem_cons,
        decide_eq_true_eq]
      by_cases hk : k = item
      · subst hk; tauto
      · simp only [hk, or_false, false_or]
        tauto
    · rw [if_neg hmem, ih]
      simp only [List.mem_cons]
      by_cases hk : k = item
      · subst hk; tauto
      · tauto

theorem mem_intersectStringSlices (a b : List String) (k : String) :
    k ∈ intersectStringSlices a b ↔ k ∈ a ∧ k ∈ b := by
  simp only [intersectStringSlices]
  by_cases hab : a.isEmpty ∨ b.isEmpty
  · rw [if_pos hab]
    rcases hab with h | h <;> rw [List.isEmpty_iff] at h <;> subst h <;> simp
  · rw [if_neg hab]
    by_cases hlen : b.length < a.length
    · simp only [hlen, if_true]
      rw [mem_intersectLoop]
      simp only [List.not_mem_nil, false_or]
      tauto
    · simp only [hlen, if_false]
      rw [mem_intersectLoop]
      simp only [List.not_mem_nil, false_or]

theorem multiGo_all_found (idx : Indexes) (store : List (String × GoRecord))
    (b : String) :
    ∀ (cs : List (String × GoVal)) (cand : List String),
      (∀ c ∈ cs, GetIndexedKeys idx b c.1 c.2 ≠ none) →
      ∃ res, multiGo idx store b cs cand = PlanOut.results (refetch store res) ∧
        ∀ k, k ∈ res ↔
          (k ∈ cand ∧ ∀ c ∈ cs, k ∈ (GetIndexedKeys idx b c.1 c.2).getD []) := by
  intro cs
  induction cs with
  | nil => intro cand _; exact ⟨cand, rfl, by simp⟩
  | cons c rest ih =>
    intro cand hall
    rcases c with ⟨f, v⟩
    have hf := hall (f, v) (List.mem_cons_self _ _)
    cases hk : GetIndexedKeys idx b f v with
    | none => exact absurd hk hf
    | some keys =>
      simp only [multiGo, hk]
      by_cases hemp : (intersectStringSlices cand keys).isEmpty
      · refine ⟨[], by simp [hemp, refetch], ?_⟩
        intro k
        simp only [List.not_mem_nil, false_iff]
        rintro ⟨hkc, hforall⟩
        have hkk := hforall (f, v) (List.mem_cons_self _ _)
        rw [hk] at hkk
        simp only [Option.getD_some] at hkk
        have hint : k ∈ intersectStringSlices cand keys :=
          (mem_intersectStringSlices _ _ _).mpr ⟨hkc, hkk⟩
        rw [List.isEmpty_iff] at hemp
        rw [hemp] at hint
        exact List.not_mem_nil k hint
      · have hrest : ∀ c ∈ rest, GetIndexedKeys idx b c.1 c.2 ≠ none :=
          fun c hc => hall c (List.mem_cons_of_mem _ hc)
        obtain ⟨res, hres, hmem⟩ := ih (intersectStringSlices cand keys) hrest
        refine ⟨res, by simp [hemp, hres], ?_⟩
        intro k
        rw [hmem k, mem_intersectStringSlices]
        constructor
        · rintro ⟨⟨hkc, hkk⟩, hrest'⟩
          refine ⟨hkc, ?_⟩
          intro c hc
          rcases List.mem_cons.mp hc with rfl | hc2
          · rw [hk]; simpa using hkk
          · exact hrest' c hc2
        · rintro ⟨hkc, hforall⟩
          refine ⟨⟨hkc, ?_⟩, fun c hc => hforall c (List.mem_cons_of_mem _ hc)⟩
          have hkk := hforall (f, v) (List.mem_cons_self _ _)
          rw [hk] at hkk
          simpa using hkk

theorem multiGo_reach_scan (idx : Indexes) (store : List (String × GoRecord))
    (b : String) :
    ∀ (ptail : List (String × GoVal)) (post : List (String × GoVal))
      (c : String × GoVal) (cand : List String),
      (∀ p ∈ ptail, GetIndexedKeys idx b p.1 p.2 ≠ none) →
      GetIndexedKeys idx b c.1 c.2 = none →
      (ptail ≠ [] →
        ∃ k ∈ cand, ∀ p ∈ ptail, k ∈ (GetIndexedKeys idx b p.1 p.2).getD []) →
      multiGo idx store b (ptail ++ c :: post) cand = PlanOut.scan := by
  intro ptail
  induction ptail with
  | nil =>
    intro post c cand _ hc _
    rcases c with ⟨f, v⟩
    simp [multiGo, hc]
  | cons p rest ih =>
    intro post c cand hfound hc hex
    obtain ⟨k, hkc, hkall⟩ := hex (by simp)
    rcases p with ⟨f, v⟩
    have hf := hfound (f, v) (List.mem_cons_self _ _)
    cases hk : GetIndexedKeys idx b f v with
    | none => exact absurd hk hf
    | some keys =>
      have hkk : k ∈ keys := by
        have hm := hkall (f, v) (List.mem_cons_self _ _)
        rw [hk] at hm
        simpa using hm
      have hkint : k ∈ intersectStringSlices cand keys :=
        (mem_intersectStringSlices _ _ _).mpr ⟨hkc, hkk⟩
      by_cases hemp : (intersectStringSlices cand keys).isEmpty
      · rw [List.isEmpty_iff] at hemp
        rw [hemp] at hkint
        exact absurd hkint (List.not_mem_nil k)
      · have hres := ih post c (intersectStringSlices cand keys)
          (fun p hp => hfound p (List.mem_cons_of_mem _ hp)) hc
          (fun _ => ⟨k, hkint, fun p hp => hkall p (List.mem_cons_of_mem _ hp)⟩)
        simpa [multiGo, hk, hemp] using hres

theorem multiGo_empty_exit (idx : Indexes) (store : List (String × GoRecord))
    (b : String) :
    ∀ (ptail : List (String × GoVal)) (post : List (String × GoVal))
      (c : String × GoVal) (cand : List String),
      (∀ p ∈ ptail, GetIndexedKeys idx b p.1 p.2 ≠ none) →
      ptail ≠ [] →
      (¬ ∃ k ∈ cand, ∀ p ∈ ptail, k ∈ (GetIndexedKeys idx b p.1 p.2).getD []) →
      multiGo idx store b (ptail ++ c :: post) cand = PlanOut.results [] := by
  intro ptail
  induction ptail with
  | nil => intro _ _ _ _ hne; exact absurd rfl hne
  | cons p rest ih =>
    intro post c cand hfound _ hnex
    rcases p with ⟨f, v⟩
    have hf := hfound (f, v) (List.mem_cons_self _ _)
    cases hk : GetIndexedKeys idx b f v with
    | none => exact absurd hk hf
    | some keys =>
      by_cases hemp : (intersectStringSlices cand keys).isEmpty
      · simp [multiGo, hk, hemp]
      · have hrest_ne : rest ≠ [] := by
          intro hr
          subst hr
          apply hemp
          rw [List.isEmpty_iff, List.eq_nil_iff_forall_not_mem]
          intro k hkint
          obtain ⟨hkc, hkk⟩ := (mem_intersectStringSlices _ _ _).mp hkint
          exact hnex ⟨k, hkc, by
            intro p hp
            rcases List.mem_cons.mp hp with rfl | hp2
            · rw [hk]; simpa using hkk
            · cases hp2⟩
        have hnex2 : ¬ ∃ k ∈ intersectStringSlices cand keys,
            ∀ p ∈ rest, k ∈ (GetIndexedKeys idx b p.1 p.2).getD [] := by
          rintro ⟨k, hkint, hkrest⟩
          obtain ⟨hkc, hkk⟩ := (mem_intersectStringSlices _ _ _).mp hkint
          refine hnex ⟨k, hkc, ?_⟩
          intro p hp
          rcases List.mem_cons.mp hp with rfl | hp2
          · rw [hk]; simpa using hkk
          · exact hkrest p hp2
        have hres := ih post c (intersectStringSlices cand keys)
          (fun p hp => hfound p (List.mem_cons_of_mem _ hp)) hrest_ne hnex2
        simpa [multiGo, hk, hemp] using hres

theorem multiGo_scan_or_empty (idx : Indexes) (store : List (String × GoRecord))
    (b : String) :
    ∀ (cs : List (String × GoVal)) (cand : List String),
      (∃ c ∈ cs, GetIndexedKeys idx b c.1 c.2 = none) →
      multiGo idx store b cs cand = PlanOut.scan ∨
      multiGo idx store b cs cand = PlanOut.results [] := by
  intro cs
  induction cs with
  | nil => intro cand hex; rcases hex with ⟨c, hc, _⟩; cases hc
  | cons c rest ih =>
    intro cand hex
    rcases c with ⟨f, v⟩
    cases hk : GetIndexedKeys idx b f v with
    | none => left; simp [multiGo, hk]
    | some keys =>
      by_cases hemp : (intersectStringSlices cand keys).isEmpty
      · right; simp [multiGo, hk, hemp]
      · have hex2 : ∃ c ∈ rest, GetIndexedKeys idx b c.1 c.2 = none := by
          rcases hex with ⟨c, hc, hnone⟩
          rcases List.mem_cons.mp hc with rfl | hc2
          · rw [hk] at hnone; cases hnone
          · exact ⟨c, hc2, hnone⟩
        have hres := ih (intersectStringSlices cand keys) hex2
        simpa [multiGo, hk, hemp] using hres

/-- C4 amended: with two or more criteria on an indexed bucket, if every
criterion probe reports found, the candidate set is exactly the intersection
of the per-criterion key sets and the result is the successful re-fetches of
those candidates. If some criterion is not found — split the criteria at the
first such, with every criterion before it found — the planner falls back to
the full scan when at most one criterion precedes it or when some key lies in
every preceding criterion's key set (the candidate set is still live when the
unresolved criterion is probed); when at least two found criteria precede it
and their key sets share no key, the running intersection empties first and
the planner returns an empty indexed result without scanning. -/
theorem C4_multi_criteria_planner (idx : Indexes) (store : List (String × GoRecord))
    (b : String) (criteria : List (String × GoVal))
    (hlen : 2 ≤ criteria.length) (hidx : HasIndex idx b = true) :
    ((∀ c ∈ criteria, GetIndexedKeys idx b c.1 c.2 ≠ none) →
      ∃ cand, findWhereIndexed idx store b criteria = PlanOut.results (refetch store cand) ∧
        ∀ k, k ∈ cand ↔ ∀ c ∈ criteria, k ∈ (GetIndexedKeys idx b c.1 c.2).getD []) ∧
    (∀ pre c post, criteria = pre ++ c :: post →
      (∀ p ∈ pre, GetIndexedKeys idx b p.1 p.2 ≠ none) →
      GetIndexedKeys idx b c.1 c.2 = none →
      (pre.length ≤ 1 → findWhereIndexed idx store b criteria = PlanOut.scan) ∧
      (∀ p0 ptail, pre = p0 :: ptail →
        ((∃ k ∈ (GetIndexedKeys idx b p0.1 p0.2).getD [],
            ∀ p ∈ ptail, k ∈ (GetIndexedKeys idx b p.1 p.2).getD []) →
          findWhereIndexed idx store b criteria = PlanOut.scan) ∧
        (ptail ≠ [] →
          (¬ ∃ k ∈ (GetIndexedKeys idx b p0.1 p0.2).getD [],
              ∀ p ∈ ptail, k ∈ (GetIndexedKeys idx b p.1 p.2).getD []) →
          findWhereIndexed idx store b criteria = PlanOut.results []))) := by
  have hne1 : criteria.length ≠ 1 := by omega
  have hgt1 : criteria.length > 1 := by omega
  have hunfold : findWhereIndexed idx store b criteria =
      findWhereMulti idx store b criteria := by
    rcases criteria with _ | ⟨c, rest⟩
    · simp at hlen
    · simp only [findWhereIndexed, hidx, if_true, hne1, if_false, hgt1]
  constructor
  · rcases criteria with _ | ⟨⟨f, v⟩, rest⟩
    · simp at hlen
    · intro hall
      have hf := hall (f, v) (List.mem_cons_self _ _)
      cases hk : GetIndexedKeys idx b f v with
      | none => exact absurd hk hf
      | some keys =>
        have hrest : ∀ c ∈ rest, GetIndexedKeys idx b c.1 c.2 ≠ none :=
          fun c hc => hall c (List.mem_cons_of_mem _ hc)
        obtain ⟨res, hres, hmem⟩ := multiGo_all_found idx store b rest keys hrest
        refine ⟨res, ?_, ?_⟩
        · rw [hunfold]
          simp only [findWhereMulti, hk]
          exact hres
        · intro k
          rw [hmem k]
          constructor
          · rintro ⟨hkk, hforall⟩
            intro c hc
            rcases List.mem_cons.mp hc with rfl | hc2
            · rw [hk]; simpa using hkk
            · exact hforall c hc2
          · intro hforall
            refine ⟨?_, fun c hc => hforall c (List.mem_cons_of_mem _ hc)⟩
            have hkk := hforall (f, v) (List.mem_cons_self _ _)
            rw [hk] at hkk
            simpa using hkk
  · intro pre c post hsplit hprefound hcnone
    constructor
    · intro hle
      rcases pre with _ | ⟨⟨f0, v0⟩, ptail⟩
      · rw [hunfold, hsplit]
        rcases c with ⟨f, v⟩
        simp only [List.nil_append]
        simp [findWhereMulti, hcnone]
      · rcases ptail with _ | ⟨p1, ptail2⟩
        · rw [hunfold, hsplit]
          have hf0 := hprefound (f0, v0) (by simp)
          cases hk0 : GetIndexedKeys idx b f0 v0 with
          | none => exact absurd hk0 hf0
          | some keys0 =>
            rcases c with ⟨f, v⟩
            simp only [List.cons_append, List.nil_append, findWhereMulti, hk0]
            simp [multiGo, hcnone]
        · simp at hle
    · rintro ⟨f0, v0⟩ ptail hpre
      subst hpre
      have hf0 := hprefound (f0, v0) (by simp)
      cases hk0 : GetIndexedKeys idx b f0 v0 with
      | none => exact absurd hk0 hf0
      | some keys0 =>
        have hptfound : ∀ p ∈ ptail, GetIndexedKeys idx b p.1 p.2 ≠ none :=
          fun p hp => hprefound p (List.mem_cons_of_mem _ hp)
        constructor
        · rintro ⟨k, hk0mem, hkall⟩
          rw [hunfold, hsplit]
          simp only [List.cons_append, findWhereMulti, hk0]
          apply multiGo_reach_scan idx store b ptail post c keys0 hptfound hcnone
          intro _
          exact ⟨k, by simpa using hk0mem, hkall⟩
        · intro hptne hnex
          rw [hunfold, hsplit]
          simp only [List.cons_append, findWhereMulti, hk0]
          apply multiGo_empty_exit idx store b ptail post c keys0 hptfound hptne
          rintro ⟨k, hkmem, hkall⟩
          exact hnex ⟨k, by simpa using hkmem, hkall⟩

/-- Records, index, store and criteria of the multi-criteria scenario
(`A:{x:1,y:2}`, `B:{x:1,y:3}`, query `{x:1,y:2}`). -/
def recA : GoRecord := [⟨"x", "", GoVal.vint 1⟩, ⟨"y", "", GoVal.vint 2⟩]

def recB : GoRecord := [⟨"x", "", GoVal.vint 1⟩, ⟨"y", "", GoVal.vint 3⟩]

def idxAB : Indexes :=
  UpdateIndex (UpdateIndex ([] : Indexes) "users" "A" recA) "users" "B" recB

def storeAB : List (String × GoRecord) := [("A", recA), ("B", recB)]

def critXY : List (String × GoVal) := [("x", GoVal.vint 1), ("y", GoVal.vint 2)]

/-- Records, index and criteria where the running intersection empties before
an unresolved criterion is probed: `A:{x:1}`, `B:{y:2}`, query
`{x:1, y:2, q:5}` with `q` absent from the index. -/
def recP : GoRecord := [⟨"x", "", GoVal.vint 1⟩]

def recQ : GoRecord := [⟨"y", "", GoVal.vint 2⟩]

def idxPQ : Indexes :=
  UpdateIndex (UpdateIndex ([] : Indexes) "b" "A" recP) "b" "B" recQ

def storePQ : List (String × GoRecord) := [("A", recP), ("B", recQ)]

def critMissing : List (String × GoVal) :=
  [("x", GoVal.vint 1), ("y", GoVal.vint 2), ("q", GoVal.vint 5)]

/-- Criteria whose unresolved second entry is probed while the candidate set
is still live (`x` found, `q` absent): the planner must scan. -/
def critXQ : List (String × GoVal) := [("x", GoVal.vint 1), ("q", GoVal.vint 5)]

theorem C4_multi_criteria_planner_witness :
    (∃ cand, findWhereIndexed idxAB storeAB "users" critXY =
        PlanOut.results (refetch storeAB cand) ∧
      ∀ k, k ∈ cand ↔ ∀ c ∈ critXY, k ∈ (GetIndexedKeys idxAB "users" c.1 c.2).getD []) ∧
    findWhereIndexed idxAB storeAB "users" critXY = PlanOut.results [recA] ∧
    findWhereIndexed idxPQ storePQ "b" critXQ = PlanOut.scan ∧
    findWhereIndexed idxPQ storePQ "b" critMissing = PlanOut.results [] := by
  refine ⟨(C4_multi_criteria_planner idxAB storeAB "users" critXY
      (by decide) (by decide)).1 (by decide), by decide, ?_, ?_⟩
  · have happ := (C4_multi_criteria_planner idxPQ storePQ "b" critXQ
      (by decide) (by decide)).2
    have hsp : critXQ = [("x", GoVal.vint 1)] ++ ("q", GoVal.vint 5) :: [] := by decide
    exact (happ [("x", GoVal.vint 1)] ("q", GoVal.vint 5) [] hsp (by decide) (by decide)).1
      (by decide)
  · have happ := (C4_multi_criteria_planner idxPQ storePQ "b" critMissing
      (by decide) (by decide)).2
    have hsp : critMissing =
        [("x", GoVal.vint 1), ("y", GoVal.vint 2)] ++ ("q", GoVal.vint 5) :: [] := by decide
    have h2 := (happ [("x", GoVal.vint 1), ("y", GoVal.vint 2)] ("q", GoVal.vint 5) []
      hsp (by decide) (by decide)).2
    exact (h2 ("x", GoVal.vint 1) [("y", GoVal.vint 2)] rfl).2 (by decide) (by decide)

/-- C4 counterexample: one criterion (`q`) is not found in the index, yet the
planner does not fall back to scan — it returns an empty indexed result
because the running intersection emptied before `q` was probed. -/
theorem C4_counterexample :
    (∃ c ∈ critMissing, GetIndexedKeys idxPQ "b" c.1 c.2 = none) ∧
    findWhereIndexed idxPQ storePQ "b" critMissing = PlanOut.results [] ∧
    findWhereIndexed idxPQ storePQ "b" critMissing ≠ PlanOut.scan := by
  refine ⟨⟨("q", GoVal.vint 5), by decide, by decide⟩, by decide, by decide⟩

/-! ## The per-item producer timeout (scan path) -/

/-- Three stored none-tagged frames for the timeout scenario. -/
def valuesT : List (List Nat) := [[0, 10], [0, 20], [0, 30]]

/-- Environment in which the handoff of the item at index 1 exceeds the
per-item deadline. -/
def timesOutAt1 : Nat → Bool := fun i => i == 1

/-- Deserializer for the timeout scenario: every payload decodes to a
one-field record holding its first byte. -/
def unmarshalT : List Nat → Option GoRecord :=
  fun d => some [⟨"p", "", GoVal.vint (d.headD 0)⟩]

/-- C2: evaluated at a scan whose second handoff times out, the producer
yields the timeout error `db.ForEach` returned — but `FindWhereScan`
discards it and completes with the partial result of the first item only,
never an error, contradicting the all-or-nothing timeout contract. -/
theorem C2_per_item_timeout_partial :
    (produceItems valuesT timesOutAt1).2 = some "timeout writing to work channel" ∧
    FindWhereScan CodecsId unmarshalT [] valuesT timesOutAt1 =
      Except.ok [[⟨"p", "", GoVal.vint 10⟩]] ∧
    ∀ e, FindWhereScan CodecsId unmarshalT [] valuesT timesOutAt1 ≠ Except.error e := by
  refine ⟨by decide, rfl, ?_⟩
  intro e h
  rw [show FindWhereScan CodecsId unmarshalT [] valuesT timesOutAt1 =
    Except.ok [[⟨"p", "", GoVal.vint 10⟩]] from rfl] at h
  cases h

end Odin
